import Mathlib

/-!
Verification of the force-evaluation and time-integration core of the
galaxy simulator (files galaxy_simulation.py and
galaxy_simulation_optimized.py).

The embedding is shallow and exact: numpy float64 arithmetic is modelled by
rational arithmetic, and `np.sqrt` is modelled by an abstract function
`sqrtA : ℚ → ℚ` carried in the simulation state, so that every theorem holds
for every interpretation of the square root (all claims proved here are
either equalities that use the square root symmetrically, or are
independent of its values).  Division by zero follows Lean's convention
`x / 0 = 0`.  Unbounded recursion in the Python octree insertion is modelled
with explicit fuel: `insertBody` returns `none` exactly when no finite
recursion depth completes the insertion.
-/

set_option maxHeartbeats 1000000

/-- A 3-component rational vector, standing for one row of a numpy `(n, 3)`
float array. -/
structure Vec3 where
  x : ℚ
  y : ℚ
  z : ℚ
  deriving DecidableEq

/-- Componentwise addition, as numpy `+` on 3-vectors. -/
def Vec3.add (a b : Vec3) : Vec3 := ⟨a.x + b.x, a.y + b.y, a.z + b.z⟩

/-- Componentwise negation. -/
def Vec3.neg (a : Vec3) : Vec3 := ⟨-a.x, -a.y, -a.z⟩

/-- Componentwise subtraction, as numpy `-` on 3-vectors. -/
def Vec3.sub (a b : Vec3) : Vec3 := ⟨a.x - b.x, a.y - b.y, a.z - b.z⟩

instance : Zero Vec3 := ⟨⟨0, 0, 0⟩⟩
instance : Add Vec3 := ⟨Vec3.add⟩
instance : Neg Vec3 := ⟨Vec3.neg⟩
instance : Sub Vec3 := ⟨Vec3.sub⟩

instance : AddCommGroup Vec3 where
  add := Vec3.add
  add_assoc a b c := by
    show Vec3.add (Vec3.add a b) c = Vec3.add a (Vec3.add b c)
    cases a; cases b; cases c
    simp only [Vec3.add, Vec3.mk.injEq]
    refine ⟨by ring, by ring, by ring⟩
  zero := ⟨0, 0, 0⟩
  zero_add a := by
    show Vec3.add ⟨0, 0, 0⟩ a = a
    cases a
    simp only [Vec3.add, Vec3.mk.injEq]
    refine ⟨by ring, by ring, by ring⟩
  add_zero a := by
    show Vec3.add a ⟨0, 0, 0⟩ = a
    cases a
    simp only [Vec3.add, Vec3.mk.injEq]
    refine ⟨by ring, by ring, by ring⟩
  add_comm a b := by
    show Vec3.add a b = Vec3.add b a
    cases a; cases b
    simp only [Vec3.add, Vec3.mk.injEq]
    refine ⟨by ring, by ring, by ring⟩
  neg := Vec3.neg
  sub := Vec3.sub
  sub_eq_add_neg a b := by
    show Vec3.sub a b = Vec3.add a (Vec3.neg b)
    cases a; cases b
    simp only [Vec3.sub, Vec3.add, Vec3.neg, Vec3.mk.injEq]
    refine ⟨by ring, by ring, by ring⟩
  neg_add_cancel a := by
    show Vec3.add (Vec3.neg a) a = ⟨0, 0, 0⟩
    cases a
    simp only [Vec3.add, Vec3.neg, Vec3.mk.injEq]
    refine ⟨by ring, by ring, by ring⟩
  nsmul := nsmulRec
  zsmul := zsmulRec

/-- Multiplication of a vector by a scalar (numpy broadcasting `vec * c`). -/
def Vec3.scale (a : Vec3) (c : ℚ) : Vec3 := ⟨a.x * c, a.y * c, a.z * c⟩

/-- Division of a vector by a scalar (numpy broadcasting `vec / c`). -/
def Vec3.sdiv (a : Vec3) (c : ℚ) : Vec3 := ⟨a.x / c, a.y / c, a.z / c⟩

/-- `np.sum(dr**2)`: squared euclidean norm. -/
def Vec3.normSq (a : Vec3) : ℚ := a.x * a.x + a.y * a.y + a.z * a.z

/-- `np.cross` of two 3-vectors. -/
def Vec3.cross (a b : Vec3) : Vec3 :=
  ⟨a.y * b.z - a.z * b.y, a.z * b.x - a.x * b.z, a.x * b.y - a.y * b.x⟩

/-- Componentwise minimum (`np.min(..., axis=0)` accumulation step). -/
def Vec3.vmin (a b : Vec3) : Vec3 := ⟨min a.x b.x, min a.y b.y, min a.z b.z⟩

/-- Componentwise maximum (`np.max(..., axis=0)` accumulation step). -/
def Vec3.vmax (a b : Vec3) : Vec3 := ⟨max a.x b.x, max a.y b.y, max a.z b.z⟩

/-- `np.max` of the three components of a vector. -/
def Vec3.maxComp (a : Vec3) : ℚ := max a.x (max a.y a.z)

/-- Projection to the x component as an additive monoid homomorphism. -/
def Vec3.xHom : Vec3 →+ ℚ := ⟨⟨fun v => v.x, rfl⟩, fun _ _ => rfl⟩

/-- Projection to the y component as an additive monoid homomorphism. -/
def Vec3.yHom : Vec3 →+ ℚ := ⟨⟨fun v => v.y, rfl⟩, fun _ _ => rfl⟩

/-- Projection to the z component as an additive monoid homomorphism. -/
def Vec3.zHom : Vec3 →+ ℚ := ⟨⟨fun v => v.z, rfl⟩, fun _ _ => rfl⟩

/-- The simulation state and configuration of `Galaxy` /
`GalaxyOptimized`: parallel arrays `positions`, `velocities`, `masses`
(indexed by the stable body index, of which the first `n` entries are
meaningful), and the run parameters `G`, `softening`, `dt`, `theta`.
`sqrtA` is the abstract interpretation of `np.sqrt`. -/
structure Galaxy where
  n : ℕ
  positions : ℕ → Vec3
  velocities : ℕ → Vec3
  masses : ℕ → ℚ
  G : ℚ
  softening : ℚ
  dt : ℚ
  theta : ℚ
  sqrtA : ℚ → ℚ

/-- A Barnes–Hut octree node, mirroring the Python `OctreeNode` dataclass.
The Python field `children : Optional[List[OctreeNode]]` is split over the
two constructors: `node` is a node whose `children` is `None` (an empty node
when `bodyIndex = none`, a leaf when `bodyIndex = some b`), and `inner` is a
node holding the 8 child octants.  `inner` keeps a `bodyIndex` field because
the Python object retains the attribute; well-formed trees have `none`
there. -/
inductive ONode where
  | node (center : Vec3) (size : ℚ) (totalMass : ℚ) (com : Vec3)
      (bodyIndex : Option ℕ)
  | inner (center : Vec3) (size : ℚ) (totalMass : ℚ) (com : Vec3)
      (bodyIndex : Option ℕ) (children : Fin 8 → ONode)

/-- The `total_mass` attribute of a node. -/
def ONode.totalMass : ONode → ℚ
  | ONode.node _ _ tm _ _ => tm
  | ONode.inner _ _ tm _ _ _ => tm

/-- `_create_children`: the 8 empty child octants of a node with center `c`
and size `s`: child `k` has size `s / 2` and center `c + offset / 2` where
`offset` has components `± s / 2` according to the three bits of `k`. -/
def createChildren (c : Vec3) (s : ℚ) : Fin 8 → ONode := fun k =>
  let half := s / 2
  let off : Vec3 :=
    ⟨if k.val % 2 = 0 then -half else half,
     if k.val / 2 % 2 = 0 then -half else half,
     if k.val / 4 % 2 = 0 then -half else half⟩
  ONode.node (c + off.sdiv 2) half 0 ⟨0, 0, 0⟩ none

/-- `_get_octant`: the octant index of a position `p` relative to a node
center `c` (bit `1` for `p.x > c.x`, bit `2` for `p.y > c.y`, bit `4` for
`p.z > c.z`). -/
def getOctant (c p : Vec3) : Fin 8 :=
  ⟨(if c.x < p.x then 1 else 0) + (if c.y < p.y then 2 else 0) +
      (if c.z < p.z then 4 else 0),
    by split_ifs <;> norm_num⟩

/-- `_insert_body`, with explicit fuel bounding the recursion depth: `none`
means the Python recursion does not complete within `fuel` nested calls.
An empty node becomes a leaf; a leaf subdivides, re-inserts its old body
and then the new one; an internal node inserts into the matching octant;
in the latter two cases `total_mass` and `center_of_mass` of the node are
updated by the running weighted average of the source. -/
def insertBody (g : Galaxy) : ℕ → ONode → ℕ → Option ONode
  | 0, _, _ => none
  | _ + 1, ONode.node c s _ _ none, b =>
    some (ONode.node c s (g.masses b) (g.positions b) (some b))
  | fuel + 1, ONode.node c s tm com (some oldIdx), b =>
    let ch0 := createChildren c s
    let ci := getOctant c (g.positions oldIdx)
    match insertBody g fuel (ch0 ci) oldIdx with
    | none => none
    | some t1 =>
      let ch1 : Fin 8 → ONode := Function.update ch0 ci t1
      let ci2 := getOctant c (g.positions b)
      match insertBody g fuel (ch1 ci2) b with
      | none => none
      | some t2 =>
        let ch2 : Fin 8 → ONode := Function.update ch1 ci2 t2
        let tm2 := tm + g.masses b
        some (ONode.inner c s tm2
          ((com.scale (tm2 - g.masses b) +
              (g.positions b).scale (g.masses b)).sdiv tm2) none ch2)
  | fuel + 1, ONode.inner c s tm com bi ch, b =>
    let ci2 := getOctant c (g.positions b)
    match insertBody g fuel (ch ci2) b with
    | none => none
    | some t2 =>
      let ch2 : Fin 8 → ONode := Function.update ch ci2 t2
      let tm2 := tm + g.masses b
      some (ONode.inner c s tm2
        ((com.scale (tm2 - g.masses b) +
            (g.positions b).scale (g.masses b)).sdiv tm2) bi ch2)

/-- Componentwise minimum of the first `n` positions
(`np.min(positions, axis=0)`), starting the accumulation at body 0. -/
def minPos (g : Galaxy) : Vec3 :=
  (List.range g.n).foldl (fun acc i => acc.vmin (g.positions i)) (g.positions 0)

/-- Componentwise maximum of the first `n` positions
(`np.max(positions, axis=0)`). -/
def maxPos (g : Galaxy) : Vec3 :=
  (List.range g.n).foldl (fun acc i => acc.vmax (g.positions i)) (g.positions 0)

/-- `build_octree` over all body indices `0, …, n-1`: bounding box of the
positions, root cube centered at the box midpoint with size
`max extent * 1.1`, then insertion of every body in index order.  `none`
stands for the `None` root of an empty body set, or for an insertion whose
recursion does not complete within `fuel`. -/
def buildOctree (g : Galaxy) (fuel : ℕ) : Option ONode :=
  if g.n = 0 then none
  else
    (List.range g.n).foldl
      (fun acc i => acc.bind (fun t => insertBody g fuel t i))
      (some (ONode.node ((minPos g + maxPos g).sdiv 2)
        ((maxPos g - minPos g).maxComp * (11 / 10)) 0 ⟨0, 0, 0⟩ none))

/-- The Python test `node.body_index is not None and node.body_index !=
body_idx`. -/
def bodyOther : Option ℕ → ℕ → Bool
  | none, _ => false
  | some j, i => decide (j ≠ i)

/-- `calculate_force_on_body` on a non-`None` node: zero for a node of zero
total mass; the softened pairwise term for a leaf holding a different body;
for an internal node, the single point-mass approximation when
`size / r < theta`, otherwise the sum over the 8 children; zero in the
remaining fallthrough cases (leaf holding the queried body itself). -/
def calcForce (g : Galaxy) (i : ℕ) : ONode → Vec3
  | ONode.node _ _ tm com bi =>
    if tm = 0 then 0
    else
      let dr := com - g.positions i
      let r2 := dr.normSq + g.softening * g.softening
      if bodyOther bi i then
        (dr.scale (g.G * g.masses i * tm)).sdiv (r2 * g.sqrtA r2)
      else 0
  | ONode.inner _ s tm com bi ch =>
    if tm = 0 then 0
    else
      let dr := com - g.positions i
      let r2 := dr.normSq + g.softening * g.softening
      if bodyOther bi i then
        (dr.scale (g.G * g.masses i * tm)).sdiv (r2 * g.sqrtA r2)
      else
        let r := g.sqrtA r2
        if s / r < g.theta then
          (dr.scale (g.G * g.masses i * tm)).sdiv (r2 * r)
        else
          calcForce g i (ch 0) + calcForce g i (ch 1) + calcForce g i (ch 2) +
            calcForce g i (ch 3) + calcForce g i (ch 4) + calcForce g i (ch 5) +
            calcForce g i (ch 6) + calcForce g i (ch 7)

/-- `calculate_forces_barnes_hut`: build the octree, then the per-body
forces; `none` when the octree build does not complete. -/
def forcesBH (g : Galaxy) (fuel : ℕ) : Option (ℕ → Vec3) :=
  (buildOctree g fuel).map (fun root => fun i => calcForce g i root)

/-- The force vector `F = G * m_i * m_j * dr / (r2 * sqrt r2)` that the
direct `O(N^2)` loop computes for the ordered pair `(i, j)`, with
`dr = pos_j - pos_i` and `r2 = |dr|^2 + softening^2`. -/
def pairF (g : Galaxy) (i j : ℕ) : Vec3 :=
  let dr := g.positions j - g.positions i
  let r2 := dr.normSq + g.softening * g.softening
  (dr.scale (g.G * g.masses i * g.masses j)).sdiv (r2 * g.sqrtA r2)

/-- `calculate_forces_direct` / `Galaxy.calculate_forces`, slot `k` of the
output array: the double loop over pairs `i < j` adds `pairF i j` into slot
`i` and subtracts it from slot `j`, so slot `k` accumulates (in exact
arithmetic) the pair terms with `k` on the left minus those with `k` on the
right. -/
def forcesDirect (g : Galaxy) (k : ℕ) : Vec3 :=
  (((List.range g.n).filter (fun j => decide (k < j))).map
      (fun j => pairF g k j)).sum -
    (((List.range g.n).filter (fun j => decide (j < k))).map
      (fun j => pairF g j k)).sum

/-- `update(use_barnes_hut=False)` / `Galaxy.update`: leapfrog
kick-drift-kick with the direct force evaluator, mirroring the source
statement by statement (`a = F / m`, `v += a*dt*0.5`, `x += v*dt`,
re-evaluate, `v += a*dt*0.5`). -/
def updateDirect (g : Galaxy) : Galaxy :=
  let accel := fun i => (forcesDirect g i).sdiv (g.masses i)
  let vHalf := fun i => g.velocities i + ((accel i).scale g.dt).scale (1 / 2)
  let xNew := fun i => g.positions i + (vHalf i).scale g.dt
  let g1 := { g with positions := xNew, velocities := vHalf }
  let accel2 := fun i => (forcesDirect g1 i).sdiv (g1.masses i)
  let vFull := fun i => g1.velocities i + ((accel2 i).scale g1.dt).scale (1 / 2)
  { g1 with velocities := vFull }

/-- Modelled from the spec: the half-step velocity kick
`v += (F / m) * (dt / 2)` with forces evaluated at the current positions. -/
def kickKDK (g : Galaxy) : Galaxy :=
  { g with velocities := fun i =>
      g.velocities i + ((forcesDirect g i).sdiv (g.masses i)).scale (g.dt / 2) }

/-- Modelled from the spec: the full-step position drift `x += v * dt`. -/
def driftKDK (g : Galaxy) : Galaxy :=
  { g with positions := fun i => g.positions i + (g.velocities i).scale g.dt }

/-- The potential-energy part of `Galaxy.get_energy`, which is also the
spec's full softened pairwise sum
`PE = -Σ_{i<j} G*m_i*m_j / sqrt(|pos_j - pos_i|^2 + ε^2)` over all `n`
bodies. -/
def potentialTrue (g : Galaxy) : ℚ :=
  -∑ i ∈ Finset.range g.n, ∑ j ∈ Finset.Ico (i + 1) g.n,
    g.G * g.masses i * g.masses j /
      g.sqrtA ((g.positions j - g.positions i).normSq +
        g.softening * g.softening)

/-- The potential-energy part of `GalaxyOptimized.get_energy`: the pair sum
restricted to the first `min(1000, n)` bodies, rescaled by `(n/1000)^2`
when `n > 1000`. -/
def potentialSampled (g : Galaxy) : ℚ :=
  let m := min 1000 g.n
  let base :=
    -∑ i ∈ Finset.range m, ∑ j ∈ Finset.Ico (i + 1) m,
      g.G * g.masses i * g.masses j /
        g.sqrtA ((g.positions j - g.positions i).normSq +
          g.softening * g.softening)
  if 1000 < g.n then base * (((g.n : ℚ) / 1000) * ((g.n : ℚ) / 1000))
  else base

/-- The `angular_momentum` entry of `get_statistics`:
`np.sum(masses[:, None] * np.cross(positions, velocities))` — a full
reduction over both array axes, producing a single scalar. -/
def angularMomentumScalar (g : Galaxy) : ℚ :=
  ∑ i ∈ Finset.range g.n,
    (g.masses i * ((g.positions i).cross (g.velocities i)).x +
      g.masses i * ((g.positions i).cross (g.velocities i)).y +
      g.masses i * ((g.positions i).cross (g.velocities i)).z)

/-- Modelled from the spec: the angular momentum as a 3-vector,
`Σ m_i * (pos_i × v_i)` summed componentwise. -/
def angularMomentumVec (g : Galaxy) : Vec3 :=
  ∑ i ∈ Finset.range g.n,
    ((g.positions i).cross (g.velocities i)).scale (g.masses i)

/-- The multiset of body indices stored at the leaves of a tree. -/
def leavesM : ONode → Multiset ℕ
  | ONode.node _ _ _ _ none => 0
  | ONode.node _ _ _ _ (some b) => {b}
  | ONode.inner _ _ _ _ _ ch =>
    leavesM (ch 0) + leavesM (ch 1) + leavesM (ch 2) + leavesM (ch 3) +
      leavesM (ch 4) + leavesM (ch 5) + leavesM (ch 6) + leavesM (ch 7)

/-- Total mass of a multiset of body indices. -/
def massSumM (g : Galaxy) (m : Multiset ℕ) : ℚ := (m.map g.masses).sum

/-- Total mass moment (mass-weighted position sum) of a multiset of body
indices. -/
def momentSumM (g : Galaxy) (m : Multiset ℕ) : Vec3 :=
  (m.map (fun j => (g.positions j).scale (g.masses j))).sum

/-- The softened pair-force sum on body `i` from a multiset of source
bodies, the body `i` itself excluded. -/
def pairSumM (g : Galaxy) (i : ℕ) (m : Multiset ℕ) : Vec3 :=
  (m.map (fun j => if j = i then 0 else pairF g i j)).sum

/-- The structural invariant maintained by octree insertion: sizes are
nonnegative; an empty node has zero total mass; a leaf carries exactly the
mass and position of its body; an internal node has no body index of its
own, positive total mass equal to the mass of its descendant leaves, and a
center of mass whose mass-weighted form is the leaves' moment sum. -/
def NodeInv (g : Galaxy) : ONode → Prop
  | ONode.node _ s tm com bi =>
    0 ≤ s ∧
      (match bi with
        | none => tm = 0
        | some b => tm = g.masses b ∧ com = g.positions b)
  | t@(ONode.inner _ s tm com bi ch) =>
    0 ≤ s ∧ bi = none ∧ 0 < tm ∧ tm = massSumM g (leavesM t) ∧
      com.scale tm = momentSumM g (leavesM t) ∧ ∀ k : Fin 8, NodeInv g (ch k)

/-- The claim-level octree invariant: every internal node holds no body
index of its own (a node is empty, a leaf, or internal — never a mix), its
`total_mass` is the sum of its descendant leaves' masses, and its
`center_of_mass` is their mass-weighted centroid. -/
def SubtreeOK (g : Galaxy) : ONode → Prop
  | ONode.node _ _ _ _ _ => True
  | t@(ONode.inner _ _ tm com bi ch) =>
    bi = none ∧ tm = massSumM g (leavesM t) ∧
      com = (momentSumM g (leavesM t)).sdiv tm ∧ ∀ k : Fin 8, SubtreeOK g (ch k)

/-- A concrete two-body system: unit masses at the origin and at
`(1, 0, 0)`, opening angle 0. -/
def gTwoBody : Galaxy :=
  { n := 2
    positions := fun i => if i = 0 then ⟨0, 0, 0⟩ else ⟨1, 0, 0⟩
    velocities := fun _ => ⟨0, 0, 0⟩
    masses := fun _ => 1
    G := 1
    softening := 1 / 100
    dt := 1 / 1000
    theta := 0
    sqrtA := fun _ => 1 }

/-- A concrete single-body system. -/
def gSingle : Galaxy :=
  { n := 1
    positions := fun _ => ⟨2, 3, 4⟩
    velocities := fun _ => ⟨1, 0, 0⟩
    masses := fun _ => 5
    G := 1
    softening := 1 / 100
    dt := 1 / 1000
    theta := 1 / 2
    sqrtA := fun _ => 1 }

/-- A concrete 1001-body system: only bodies 0 and 1000 are massive, so
every pair among the first 1000 bodies contributes nothing to the potential
energy while the pair `(0, 1000)` contributes `-1/1000`.  `sqrtA` agrees
with the real square root at the only squared distance whose value
matters. -/
def gBig : Galaxy :=
  { n := 1001
    positions := fun i => ⟨(i : ℚ), 0, 0⟩
    velocities := fun _ => ⟨0, 0, 0⟩
    masses := fun i => if i = 0 ∨ i = 1000 then 1 else 0
    G := 1
    softening := 0
    dt := 1 / 1000
    theta := 1 / 2
    sqrtA := fun q => if q = 1000000 then 1000 else 1 }

/-- A concrete one-body system whose mass-weighted cross product is the
vector `(0, 2, 3)`, of component sum 5. -/
def gCross : Galaxy :=
  { n := 1
    positions := fun _ => ⟨1, 0, 0⟩
    velocities := fun _ => ⟨0, 3, -2⟩
    masses := fun _ => 1
    G := 1
    softening := 1 / 100
    dt := 1 / 1000
    theta := 1 / 2
    sqrtA := fun _ => 1 }

/-- A concrete invalid configuration: negative time step and negative
mass. -/
def gBad : Galaxy :=
  { n := 1
    positions := fun _ => ⟨0, 0, 0⟩
    velocities := fun _ => ⟨1, 0, 0⟩
    masses := fun _ => -2
    G := 1
    softening := 1 / 100
    dt := -1
    theta := 1 / 2
    sqrtA := fun _ => 1 }

/-- A concrete degenerate system: two bodies at identical positions. -/
def gCoincident : Galaxy :=
  { n := 2
    positions := fun _ => ⟨0, 0, 0⟩
    velocities := fun _ => ⟨0, 0, 0⟩
    masses := fun _ => 1
    G := 1
    softening := 1 / 100
    dt := 1 / 1000
    theta := 1 / 2
    sqrtA := fun _ => 1 }

/-! ### Helper lemmas -/

@[ext] theorem Vec3.ext {a b : Vec3} (hx : a.x = b.x) (hy : a.y = b.y)
    (hz : a.z = b.z) : a = b := by
  cases a; cases b
  simp only [Vec3.mk.injEq]
  exact ⟨hx, hy, hz⟩

@[simp] theorem Vec3.add_x (a b : Vec3) : (a + b).x = a.x + b.x := rfl
@[simp] theorem Vec3.add_y (a b : Vec3) : (a + b).y = a.y + b.y := rfl
@[simp] theorem Vec3.add_z (a b : Vec3) : (a + b).z = a.z + b.z := rfl
@[simp] theorem Vec3.neg_x (a : Vec3) : (-a).x = -a.x := rfl
@[simp] theorem Vec3.neg_y (a : Vec3) : (-a).y = -a.y := rfl
@[simp] theorem Vec3.neg_z (a : Vec3) : (-a).z = -a.z := rfl
@[simp] theorem Vec3.sub_x (a b : Vec3) : (a - b).x = a.x - b.x := rfl
@[simp] theorem Vec3.sub_y (a b : Vec3) : (a - b).y = a.y - b.y := rfl
@[simp] theorem Vec3.sub_z (a b : Vec3) : (a - b).z = a.z - b.z := rfl
@[simp] theorem Vec3.zero_x : (0 : Vec3).x = 0 := rfl
@[simp] theorem Vec3.zero_y : (0 : Vec3).y = 0 := rfl
@[simp] theorem Vec3.zero_z : (0 : Vec3).z = 0 := rfl
@[simp] theorem Vec3.scale_x (a : Vec3) (c : ℚ) : (a.scale c).x = a.x * c := rfl
@[simp] theorem Vec3.scale_y (a : Vec3) (c : ℚ) : (a.scale c).y = a.y * c := rfl
@[simp] theorem Vec3.scale_z (a : Vec3) (c : ℚ) : (a.scale c).z = a.z * c := rfl
@[simp] theorem Vec3.sdiv_x (a : Vec3) (c : ℚ) : (a.sdiv c).x = a.x / c := rfl
@[simp] theorem Vec3.sdiv_y (a : Vec3) (c : ℚ) : (a.sdiv c).y = a.y / c := rfl
@[simp] theorem Vec3.sdiv_z (a : Vec3) (c : ℚ) : (a.sdiv c).z = a.z / c := rfl

theorem Vec3.normSq_nonneg (a : Vec3) : 0 ≤ a.normSq := by
  have hx := mul_self_nonneg a.x
  have hy := mul_self_nonneg a.y
  have hz := mul_self_nonneg a.z
  unfold Vec3.normSq
  linarith

theorem Vec3.normSq_sub_comm (a b : Vec3) : (a - b).normSq = (b - a).normSq := by
  simp only [Vec3.normSq, Vec3.sub_x, Vec3.sub_y, Vec3.sub_z]
  ring

/-- Newton's third law at the level of the pair term of the direct loop:
the force the loop computes for `(j, i)` is the negation of the one it
computes for `(i, j)`. -/
theorem pairF_antisymm (g : Galaxy) (i j : ℕ) : pairF g j i = -pairF g i j := by
  simp only [pairF]
  rw [Vec3.normSq_sub_comm (g.positions i) (g.positions j)]
  apply Vec3.ext <;>
    simp only [Vec3.neg_x, Vec3.neg_y, Vec3.neg_z, Vec3.sdiv_x, Vec3.sdiv_y,
      Vec3.sdiv_z, Vec3.scale_x, Vec3.scale_y, Vec3.scale_z, Vec3.sub_x,
      Vec3.sub_y, Vec3.sub_z] <;>
    ring

theorem sumPairList (g : Galaxy) (k : ℕ) (l : List ℕ) :
    ((l.filter (fun j => decide (k < j))).map (fun j => pairF g k j)).sum -
        ((l.filter (fun j => decide (j < k))).map (fun j => pairF g j k)).sum =
      (l.map (fun j => if j = k then 0 else pairF g k j)).sum := by
  induction l with
  | nil => simp
  | cons a t ih =>
    rcases lt_trichotomy a k with h | h | h
    · have h1 : ¬ k < a := by omega
      have h2 : a ≠ k := by omega
      simp [List.filter_cons, h, h1, h2]
      rw [pairF_antisymm g a k, ← ih]
      abel
    · subst h
      simp [List.filter_cons]
      rw [← ih]
    · have h1 : ¬ a < k := by omega
      have h2 : a ≠ k := by omega
      simp [List.filter_cons, h, h1, h2]
      rw [← ih]
      abel

/-- Closed form of slot `k` of the direct force loop: the sum of the pair
terms from every other body in `0, …, n-1`. -/
theorem forcesDirect_eq (g : Galaxy) (k : ℕ) :
    forcesDirect g k =
      ((List.range g.n).map (fun j => if j = k then 0 else pairF g k j)).sum :=
  sumPairList g k (List.range g.n)

theorem sumRangeList (n : ℕ) (f : ℕ → ℚ) :
    ((List.range n).map f).sum = ∑ i ∈ Finset.range n, f i := by
  induction n with
  | zero => simp
  | succ n ih =>
    rw [List.range_succ, List.map_append, List.sum_append, Finset.sum_range_succ, ih]
    simp

@[simp] theorem massSumM_zero (g : Galaxy) : massSumM g 0 = 0 := rfl

@[simp] theorem massSumM_cons (g : Galaxy) (a : ℕ) (m : Multiset ℕ) :
    massSumM g (a ::ₘ m) = g.masses a + massSumM g m := by
  simp [massSumM]

@[simp] theorem massSumM_add (g : Galaxy) (m1 m2 : Multiset ℕ) :
    massSumM g (m1 + m2) = massSumM g m1 + massSumM g m2 := by
  simp [massSumM]

@[simp] theorem massSumM_singleton (g : Galaxy) (a : ℕ) :
    massSumM g {a} = g.masses a := by
  simp [massSumM]

@[simp] theorem momentSumM_zero (g : Galaxy) : momentSumM g 0 = 0 := rfl

@[simp] theorem momentSumM_cons (g : Galaxy) (a : ℕ) (m : Multiset ℕ) :
    momentSumM g (a ::ₘ m) =
      (g.positions a).scale (g.masses a) + momentSumM g m := by
  simp [momentSumM]

@[simp] theorem momentSumM_add (g : Galaxy) (m1 m2 : Multiset ℕ) :
    momentSumM g (m1 + m2) = momentSumM g m1 + momentSumM g m2 := by
  simp [momentSumM]

@[simp] theorem momentSumM_singleton (g : Galaxy) (a : ℕ) :
    momentSumM g {a} = (g.positions a).scale (g.masses a) := by
  simp [momentSumM]

@[simp] theorem pairSumM_zero (g : Galaxy) (i : ℕ) : pairSumM g i 0 = 0 := rfl

@[simp] theorem pairSumM_add (g : Galaxy) (i : ℕ) (m1 m2 : Multiset ℕ) :
    pairSumM g i (m1 + m2) = pairSumM g i m1 + pairSumM g i m2 := by
  simp [pairSumM]

@[simp] theorem leavesM_empty (c : Vec3) (s tm : ℚ) (com : Vec3) :
    leavesM (ONode.node c s tm com none) = 0 := rfl

@[simp] theorem leavesM_leaf (c : Vec3) (s tm : ℚ) (com : Vec3) (b : ℕ) :
    leavesM (ONode.node c s tm com (some b)) = {b} := rfl

theorem leavesM_inner (c : Vec3) (s tm : ℚ) (com : Vec3) (bi : Option ℕ)
    (ch : Fin 8 → ONode) :
    leavesM (ONode.inner c s tm com bi ch) = ∑ k : Fin 8, leavesM (ch k) := by
  rw [Fin.sum_univ_eight]
  rfl

@[simp] theorem createChildren_leaves (c : Vec3) (s : ℚ) (k : Fin 8) :
    leavesM (createChildren c s k) = 0 := by
  simp [createChildren]

theorem createChildren_inv (g : Galaxy) (c : Vec3) (s : ℚ) (hs : 0 ≤ s)
    (k : Fin 8) : NodeInv g (createChildren c s k) := by
  simp only [createChildren, NodeInv]
  exact ⟨by positivity, by trivial⟩

/-- Replacing one of eight summands: the sum over an updated function plus
the replaced value equals the original sum plus the new value. -/
theorem sum_comp_update_fin8 {M : Type} [AddCommMonoid M] (L : ONode → M)
    (ch : Fin 8 → ONode) (i : Fin 8) (t : ONode) :
    (∑ k : Fin 8, L (Function.update ch i t k)) + L (ch i) =
      (∑ k : Fin 8, L (ch k)) + L t := by
  have h : ∀ k, L (Function.update ch i t k) =
      Function.update (fun k => L (ch k)) i (L t) k := by
    intro k
    rcases eq_or_ne k i with rfl | hk
    · simp
    · simp [Function.update_noteq hk]
  rw [Finset.sum_congr rfl (fun k _ => h k),
    Finset.sum_update_of_mem (Finset.mem_univ i),
    Finset.sum_eq_sum_diff_singleton_add (Finset.mem_univ i)
      (fun k => L (ch k))]
  abel

theorem mem_child_leaves (c : Vec3) (s tm : ℚ) (com : Vec3) (bi : Option ℕ)
    (ch : Fin 8 → ONode) (k : Fin 8) (x : ℕ) (hx : x ∈ leavesM (ch k)) :
    x ∈ leavesM (ONode.inner c s tm com bi ch) := by
  rw [leavesM_inner]
  exact (Finset.mem_sum _ _).mpr ⟨k, Finset.mem_univ k, hx⟩

theorem NodeInv_empty (g : Galaxy) (c : Vec3) (s tm : ℚ) (com : Vec3) :
    NodeInv g (ONode.node c s tm com none) ↔ 0 ≤ s ∧ tm = 0 := by
  simp [NodeInv]

theorem NodeInv_leaf (g : Galaxy) (c : Vec3) (s tm : ℚ) (com : Vec3) (b : ℕ) :
    NodeInv g (ONode.node c s tm com (some b)) ↔
      0 ≤ s ∧ tm = g.masses b ∧ com = g.positions b := by
  simp [NodeInv]

theorem NodeInv_inner (g : Galaxy) (c : Vec3) (s tm : ℚ) (com : Vec3)
    (bi : Option ℕ) (ch : Fin 8 → ONode) :
    NodeInv g (ONode.inner c s tm com bi ch) ↔
      0 ≤ s ∧ bi = none ∧ 0 < tm ∧
        tm = massSumM g (leavesM (ONode.inner c s tm com bi ch)) ∧
        com.scale tm = momentSumM g (leavesM (ONode.inner c s tm com bi ch)) ∧
        ∀ k : Fin 8, NodeInv g (ch k) := by
  rw [NodeInv]

theorem Vec3.sdiv_scale_cancel (v : Vec3) (c : ℚ) (hc : c ≠ 0) :
    (v.sdiv c).scale c = v := by
  apply Vec3.ext <;> simp <;> field_simp

/-- The leaves of an internal node after one child is replaced by a node
holding one extra body `b`. -/
theorem leaves_after_update (ch : Fin 8 → ONode) (i : Fin 8) (t2 : ONode)
    (b : ℕ) (hlv2 : leavesM t2 = b ::ₘ leavesM (ch i)) (c : Vec3) (s tm : ℚ)
    (com : Vec3) (bi : Option ℕ) :
    leavesM (ONode.inner c s tm com bi (Function.update ch i t2)) =
      b ::ₘ (∑ k : Fin 8, leavesM (ch k)) := by
  rw [leavesM_inner]
  have h := sum_comp_update_fin8 leavesM ch i t2
  rw [hlv2] at h
  have h2 : (∑ k : Fin 8, leavesM (ch k)) + (b ::ₘ leavesM (ch i)) =
      (b ::ₘ ∑ k : Fin 8, leavesM (ch k)) + leavesM (ch i) := by
    rw [Multiset.add_cons, Multiset.cons_add]
  rw [h2] at h
  exact add_right_cancel h

/-- Octree insertion with sufficient fuel preserves the structural
invariant and adds exactly the inserted body to the leaf multiset. -/
theorem insert_ok (g : Galaxy) :
    ∀ (fuel : ℕ) (t : ONode) (b : ℕ) (t2 : ONode),
      NodeInv g t → (∀ j ∈ leavesM t, 0 < g.masses j) → 0 < g.masses b →
      insertBody g fuel t b = some t2 →
      NodeInv g t2 ∧ leavesM t2 = b ::ₘ leavesM t := by
  intro fuel
  induction fuel with
  | zero =>
    intro t b t2 _ _ _ h
    simp [insertBody] at h
  | succ fuel ih =>
    intro t b t2 hinv hpos hb h
    cases t with
    | node c s tm com bi =>
      cases bi with
      | none =>
        simp only [insertBody, Option.some.injEq] at h
        subst h
        refine ⟨?_, by simp⟩
        rw [NodeInv_leaf]
        exact ⟨((NodeInv_empty g c s tm com).mp hinv).1, rfl, rfl⟩
      | some oldIdx =>
        obtain ⟨hs, htm, hcom⟩ := (NodeInv_leaf g c s tm com oldIdx).mp hinv
        have hold : 0 < g.masses oldIdx := hpos oldIdx (by simp)
        simp only [insertBody] at h
        split at h
        · exact absurd h (by simp)
        · next t1 heq1 =>
          split at h
          · exact absurd h (by simp)
          · next t2x heq2 =>
            simp only [Option.some.injEq] at h
            subst h
            obtain ⟨hinv1, hlv1⟩ :=
              ih _ _ _ (createChildren_inv g c s hs _) (by simp) hold heq1
            have hchild_inv : NodeInv g
                (Function.update (createChildren c s)
                  (getOctant c (g.positions oldIdx)) t1
                  (getOctant c (g.positions b))) := by
              rcases eq_or_ne (getOctant c (g.positions b))
                  (getOctant c (g.positions oldIdx)) with he | hne
              · rw [he, Function.update_same]; exact hinv1
              · rw [Function.update_noteq hne]
                exact createChildren_inv g c s hs _
            have hchild_pos : ∀ j ∈ leavesM
                (Function.update (createChildren c s)
                  (getOctant c (g.positions oldIdx)) t1
                  (getOctant c (g.positions b))), 0 < g.masses j := by
              rcases eq_or_ne (getOctant c (g.positions b))
                  (getOctant c (g.positions oldIdx)) with he | hne
              · rw [he, Function.update_same, hlv1]
                intro j hj
                simp at hj
                subst hj
                exact hold
              · rw [Function.update_noteq hne]
                simp
            obtain ⟨hinv2, hlv2⟩ := ih _ _ _ hchild_inv hchild_pos hb heq2
            have hsum1 : (∑ k : Fin 8,
                leavesM (Function.update (createChildren c s)
                  (getOctant c (g.positions oldIdx)) t1 k)) = {oldIdx} := by
              have h1 := sum_comp_update_fin8 leavesM (createChildren c s)
                (getOctant c (g.positions oldIdx)) t1
              rw [hlv1] at h1
              simpa using h1
            have hleaves : leavesM (ONode.inner c s (tm + g.masses b)
                ((com.scale ((tm + g.masses b) - g.masses b) +
                  (g.positions b).scale (g.masses b)).sdiv (tm + g.masses b))
                none
                (Function.update (Function.update (createChildren c s)
                  (getOctant c (g.positions oldIdx)) t1)
                  (getOctant c (g.positions b)) t2x)) =
                b ::ₘ {oldIdx} := by
              rw [leaves_after_update _ _ _ _ hlv2, hsum1]
            refine ⟨?_, by rw [hleaves]; simp⟩
            rw [NodeInv_inner]
            have htmpos2 : 0 < tm + g.masses b := by rw [htm]; linarith
            have htm2 : tm + g.masses b ≠ 0 := htmpos2.ne'
            refine ⟨hs, rfl, htmpos2, ?_, ?_, ?_⟩
            · rw [hleaves]
              simp [htm]
              ring
            · rw [hleaves]
              rw [Vec3.sdiv_scale_cancel _ _ htm2]
              simp [add_sub_cancel_right, htm, hcom]
              rw [add_comm]
            · intro k
              rcases eq_or_ne k (getOctant c (g.positions b)) with rfl | hk2
              · rw [Function.update_same]; exact hinv2
              · rw [Function.update_noteq hk2]
                rcases eq_or_ne k (getOctant c (g.positions oldIdx)) with
                  rfl | hk1
                · rw [Function.update_same]; exact hinv1
                · rw [Function.update_noteq hk1]
                  exact createChildren_inv g c s hs _
    | inner c s tm com bi ch =>
      obtain ⟨hs, hbi, htmpos, htm, hcom, hch⟩ :=
        (NodeInv_inner g c s tm com bi ch).mp hinv
      subst hbi
      simp only [insertBody] at h
      split at h
      · exact absurd h (by simp)
      · next t2x heq2 =>
        simp only [Option.some.injEq] at h
        subst h
        obtain ⟨hinv2, hlv2⟩ := ih _ _ _ (hch _)
          (fun j hj => hpos j (mem_child_leaves c s tm com none ch _ j hj))
          hb heq2
        have hleaves : leavesM (ONode.inner c s (tm + g.masses b)
            ((com.scale ((tm + g.masses b) - g.masses b) +
              (g.positions b).scale (g.masses b)).sdiv (tm + g.masses b))
            none (Function.update ch (getOctant c (g.positions b)) t2x)) =
            b ::ₘ leavesM (ONode.inner c s tm com none ch) := by
          rw [leaves_after_update _ _ _ _ hlv2, leavesM_inner]
        refine ⟨?_, by rw [hleaves]⟩
        rw [NodeInv_inner]
        have htmpos2 : 0 < tm + g.masses b := by linarith
        have htm2 : tm + g.masses b ≠ 0 := htmpos2.ne'
        refine ⟨hs, rfl, htmpos2, ?_, ?_, ?_⟩
        · rw [hleaves, massSumM_cons, ← htm]
          ring
        · rw [hleaves, momentSumM_cons, ← hcom]
          rw [Vec3.sdiv_scale_cancel _ _ htm2]
          rw [add_sub_cancel_right, add_comm]
        · intro k
          rcases eq_or_ne k (getOctant c (g.positions b)) with rfl | hk2
          · rw [Function.update_same]; exact hinv2
          · rw [Function.update_noteq hk2]
            exact hch k

theorem foldl_insert_none (g : Galaxy) (fuel : ℕ) (l : List ℕ) :
    List.foldl (fun acc i => acc.bind (fun t => insertBody g fuel t i))
      none l = none := by
  induction l with
  | nil => rfl
  | cons a t ih =>
    simp only [List.foldl_cons, Option.none_bind]
    exact ih

theorem foldl_insert_ok (g : Galaxy) (fuel : ℕ) :
    ∀ (l : List ℕ) (t t2 : ONode),
      NodeInv g t → (∀ j ∈ leavesM t, 0 < g.masses j) →
      (∀ i ∈ l, 0 < g.masses i) →
      List.foldl (fun acc i => acc.bind (fun t => insertBody g fuel t i))
        (some t) l = some t2 →
      NodeInv g t2 ∧ leavesM t2 = leavesM t + ↑l := by
  intro l
  induction l with
  | nil =>
    intro t t2 h1 _ _ h
    simp at h
    subst h
    exact ⟨h1, by simp⟩
  | cons a l ihl =>
    intro t t2 h1 h2 h3 h
    rw [List.foldl_cons] at h
    cases ha : insertBody g fuel t a with
    | none =>
      rw [show (some t).bind (fun t => insertBody g fuel t a) = none by
            rw [Option.some_bind, ha]] at h
      rw [foldl_insert_none] at h
      exact absurd h (by simp)
    | some t1 =>
      rw [show (some t).bind (fun t => insertBody g fuel t a) = some t1 by
            rw [Option.some_bind, ha]] at h
      obtain ⟨hi1, hl1⟩ := insert_ok g fuel t a t1 h1 h2 (h3 a (by simp)) ha
      obtain ⟨hi2, hl2⟩ := ihl t1 t2 hi1
        (by
          intro j hj
          rw [hl1] at hj
          rcases Multiset.mem_cons.mp hj with rfl | hj2
          · exact h3 j (by simp)
          · exact h2 j hj2)
        (fun i hi => h3 i (by simp [hi])) h
      refine ⟨hi2, ?_⟩
      rw [hl2, hl1, ← Multiset.cons_coe, Multiset.cons_add, Multiset.add_cons]

theorem foldl_vmin_le (p : ℕ → Vec3) (l : List ℕ) :
    ∀ acc : Vec3,
      (List.foldl (fun a i => a.vmin (p i)) acc l).x ≤ acc.x ∧
        (List.foldl (fun a i => a.vmin (p i)) acc l).y ≤ acc.y ∧
        (List.foldl (fun a i => a.vmin (p i)) acc l).z ≤ acc.z := by
  induction l with
  | nil => simp
  | cons a t ih =>
    intro acc
    rw [List.foldl_cons]
    obtain ⟨hx, hy, hz⟩ := ih (acc.vmin (p a))
    refine ⟨le_trans hx ?_, le_trans hy ?_, le_trans hz ?_⟩ <;>
      simp [Vec3.vmin]

theorem foldl_vmax_ge (p : ℕ → Vec3) (l : List ℕ) :
    ∀ acc : Vec3,
      acc.x ≤ (List.foldl (fun a i => a.vmax (p i)) acc l).x ∧
        acc.y ≤ (List.foldl (fun a i => a.vmax (p i)) acc l).y ∧
        acc.z ≤ (List.foldl (fun a i => a.vmax (p i)) acc l).z := by
  induction l with
  | nil => simp
  | cons a t ih =>
    intro acc
    rw [List.foldl_cons]
    obtain ⟨hx, hy, hz⟩ := ih (acc.vmax (p a))
    refine ⟨le_trans ?_ hx, le_trans ?_ hy, le_trans ?_ hz⟩ <;>
      simp [Vec3.vmax]

theorem rootSize_nonneg (g : Galaxy) :
    0 ≤ (maxPos g - minPos g).maxComp * (11 / 10) := by
  have h1 := (foldl_vmin_le g.positions (List.range g.n) (g.positions 0)).1
  have h2 := (foldl_vmax_ge g.positions (List.range g.n) (g.positions 0)).1
  have hx : (minPos g).x ≤ (maxPos g).x := by
    unfold minPos maxPos
    exact le_trans h1 h2
  have hc : 0 ≤ (maxPos g - minPos g).x := by
    simp only [Vec3.sub_x]
    linarith
  have hm : 0 ≤ (maxPos g - minPos g).maxComp :=
    le_trans hc (le_max_left _ _)
  have h11 : (0 : ℚ) ≤ 11 / 10 := by norm_num
  exact mul_nonneg hm h11

/-- Building the octree with sufficient fuel yields a tree satisfying the
structural invariant whose leaves are exactly the body indices
`0, …, n-1`. -/
theorem build_ok (g : Galaxy) (fuel : ℕ) (root : ONode)
    (hm : ∀ i, i < g.n → 0 < g.masses i)
    (h : buildOctree g fuel = some root) :
    NodeInv g root ∧ leavesM root = ↑(List.range g.n) := by
  unfold buildOctree at h
  by_cases hn : g.n = 0
  · simp [hn] at h
  · rw [if_neg hn] at h
    obtain ⟨hi, hl⟩ := foldl_insert_ok g fuel (List.range g.n)
      (ONode.node ((minPos g + maxPos g).sdiv 2)
        ((maxPos g - minPos g).maxComp * (11 / 10)) 0 ⟨0, 0, 0⟩ none) root
      (by rw [NodeInv_empty]; exact ⟨rootSize_nonneg g, rfl⟩)
      (by simp)
      (fun i hi => hm i (List.mem_range.mp hi))
      h
    exact ⟨hi, by rw [hl]; simp⟩

@[simp] theorem pairSumM_singleton (g : Galaxy) (i a : ℕ) :
    pairSumM g i {a} = if a = i then 0 else pairF g i a := by
  simp [pairSumM]

/-- With opening angle 0, the Barnes–Hut traversal of an invariant-satisfying
tree computes exactly the softened pair sum over the tree's leaves (the
queried body excluded). -/
theorem calcForce_zero_theta (g : Galaxy) (hθ : g.theta = 0)
    (hsq : ∀ q, 0 ≤ q → 0 ≤ g.sqrtA q) (i : ℕ) :
    ∀ t, NodeInv g t → (∀ j ∈ leavesM t, 0 < g.masses j) →
      calcForce g i t = pairSumM g i (leavesM t) := by
  intro t
  induction t with
  | node c s tm com bi =>
    intro hinv hpos
    cases bi with
    | none =>
      have h0 : tm = 0 := ((NodeInv_empty g c s tm com).mp hinv).2
      simp [calcForce, h0]
    | some j =>
      obtain ⟨hs, htm, hcom⟩ := (NodeInv_leaf g c s tm com j).mp hinv
      have hj : 0 < g.masses j := hpos j (by simp)
      have htm0 : ¬ tm = 0 := by rw [htm]; exact hj.ne'
      by_cases hij : j = i
      · subst hij
        simp [calcForce, htm0, bodyOther]
      · have hjne : g.masses j ≠ 0 := hj.ne'
        simp [calcForce, htm0, bodyOther, hij, pairF, htm, hcom, hjne]
  | inner c s tm com bi ch ih =>
    intro hinv hpos
    obtain ⟨hs, hbi, htmpos, hmass, hcom, hch⟩ :=
      (NodeInv_inner g c s tm com bi ch).mp hinv
    subst hbi
    have htm0 : ¬ tm = 0 := htmpos.ne'
    have hr2 : 0 ≤ (com - g.positions i).normSq +
        g.softening * g.softening :=
      add_nonneg (Vec3.normSq_nonneg _) (mul_self_nonneg _)
    have hnlt : ¬ (s / g.sqrtA ((com - g.positions i).normSq +
        g.softening * g.softening) < g.theta) := by
      rw [hθ]
      exact not_lt.mpr (div_nonneg hs (hsq _ hr2))
    have hposk : ∀ k : Fin 8, ∀ j ∈ leavesM (ch k), 0 < g.masses j :=
      fun k j hj => hpos j (mem_child_leaves c s tm com none ch k j hj)
    have hstep : calcForce g i (ONode.inner c s tm com none ch) =
        calcForce g i (ch 0) + calcForce g i (ch 1) + calcForce g i (ch 2) +
          calcForce g i (ch 3) + calcForce g i (ch 4) + calcForce g i (ch 5) +
          calcForce g i (ch 6) + calcForce g i (ch 7) := by
      simp only [calcForce, bodyOther]
      rw [if_neg htm0, if_neg hnlt]
      simp
    rw [hstep, ih 0 (hch 0) (hposk 0), ih 1 (hch 1) (hposk 1),
      ih 2 (hch 2) (hposk 2), ih 3 (hch 3) (hposk 3), ih 4 (hch 4) (hposk 4),
      ih 5 (hch 5) (hposk 5), ih 6 (hch 6) (hposk 6), ih 7 (hch 7) (hposk 7)]
    show _ = pairSumM g i (leavesM (ONode.inner c s tm com none ch))
    simp [leavesM, pairSumM_add]

theorem pairSumM_coe (g : Galaxy) (i : ℕ) (l : List ℕ) :
    pairSumM g i ↑l =
      (l.map (fun j => if j = i then 0 else pairF g i j)).sum := by
  simp [pairSumM]

theorem massSumM_coe (g : Galaxy) (l : List ℕ) :
    massSumM g ↑l = (l.map g.masses).sum := by
  simp [massSumM]

theorem NodeInv_totalMass (g : Galaxy) (t : ONode) (h : NodeInv g t) :
    t.totalMass = massSumM g (leavesM t) := by
  cases t with
  | node c s tm com bi =>
    cases bi with
    | none =>
      have h2 := (NodeInv_empty g c s tm com).mp h
      simp [ONode.totalMass, h2.2]
    | some b =>
      have h2 := (NodeInv_leaf g c s tm com b).mp h
      simp [ONode.totalMass, h2.2.1]
  | inner c s tm com bi ch =>
    exact ((NodeInv_inner g c s tm com bi ch).mp h).2.2.2.1

theorem SubtreeOK_node (g : Galaxy) (c : Vec3) (s tm : ℚ) (com : Vec3)
    (bi : Option ℕ) : SubtreeOK g (ONode.node c s tm com bi) := by
  rw [SubtreeOK]
  trivial

theorem SubtreeOK_inner (g : Galaxy) (c : Vec3) (s tm : ℚ) (com : Vec3)
    (bi : Option ℕ) (ch : Fin 8 → ONode) :
    SubtreeOK g (ONode.inner c s tm com bi ch) ↔
      bi = none ∧
        tm = massSumM g (leavesM (ONode.inner c s tm com bi ch)) ∧
        com = (momentSumM g (leavesM (ONode.inner c s tm com bi ch))).sdiv tm ∧
        ∀ k : Fin 8, SubtreeOK g (ch k) := by
  rw [SubtreeOK]

theorem NodeInv_SubtreeOK (g : Galaxy) :
    ∀ t, NodeInv g t → (∀ j ∈ leavesM t, 0 < g.masses j) → SubtreeOK g t := by
  intro t
  induction t with
  | node c s tm com bi => exact fun _ _ => SubtreeOK_node g c s tm com bi
  | inner c s tm com bi ch ih =>
    intro hinv hpos
    obtain ⟨hs, hbi, htmpos, hmass, hcom, hch⟩ :=
      (NodeInv_inner g c s tm com bi ch).mp hinv
    subst hbi
    have htm0 : tm ≠ 0 := htmpos.ne'
    refine (SubtreeOK_inner g c s tm com none ch).mpr
      ⟨rfl, hmass, ?_, fun k => ih k (hch k)
        (fun j hj => hpos j (mem_child_leaves c s tm com none ch k j hj))⟩
    have hx := congrArg Vec3.x hcom
    have hy := congrArg Vec3.y hcom
    have hz := congrArg Vec3.z hcom
    simp only [Vec3.scale_x, Vec3.scale_y, Vec3.scale_z] at hx hy hz
    apply Vec3.ext <;> simp only [Vec3.sdiv_x, Vec3.sdiv_y, Vec3.sdiv_z] <;>
      rw [eq_div_iff htm0] <;> assumption

/-! ### Claim theorems -/

/-- C1: For every body set with positive masses (and a square-root
interpretation that is nonnegative on nonnegative arguments, as `np.sqrt`
is), Barnes–Hut force evaluation with opening angle `theta = 0` produces,
whenever the octree build completes, for every body the same force vector
as direct pairwise summation: with `theta = 0` the criterion
`node.size / r < theta` never holds, every internal node is recursed into,
and each leaf contributes the same softened pairwise term as the direct
loop, exactly in exact arithmetic. -/
theorem C1_bh_theta_zero_matches_direct (g : Galaxy) (hθ : g.theta = 0)
    (hm : ∀ i, i < g.n → 0 < g.masses i)
    (hsq : ∀ q, 0 ≤ q → 0 ≤ g.sqrtA q) (fuel : ℕ) :
    ∀ F, forcesBH g fuel = some F → ∀ i, i < g.n → F i = forcesDirect g i := by
  intro F hF i _
  unfold forcesBH at hF
  cases hroot : buildOctree g fuel with
  | none =>
    rw [hroot] at hF
    exact absurd hF (by simp)
  | some root =>
    rw [hroot] at hF
    simp only [Option.map_some', Option.some.injEq] at hF
    subst hF
    obtain ⟨hinv, hleaves⟩ := build_ok g fuel root hm hroot
    have hpos : ∀ j ∈ leavesM root, 0 < g.masses j := by
      rw [hleaves]
      intro j hj
      exact hm j (List.mem_range.mp (Multiset.mem_coe.mp hj))
    show calcForce g i root = forcesDirect g i
    rw [calcForce_zero_theta g hθ hsq i root hinv hpos, hleaves,
      forcesDirect_eq, pairSumM_coe]

/-- Witness for C1: the hypotheses hold at the concrete two-body system
`gTwoBody` with `theta = 0`. -/
theorem C1_witness :
    gTwoBody.theta = 0 ∧ (∀ i, i < gTwoBody.n → 0 < gTwoBody.masses i) ∧
      (∀ q, 0 ≤ q → 0 ≤ gTwoBody.sqrtA q) ∧
      (∀ F, forcesBH gTwoBody 3 = some F →
        ∀ i, i < gTwoBody.n → F i = forcesDirect gTwoBody i) :=
  ⟨rfl, fun i _ => by norm_num [gTwoBody], fun q _ => by norm_num [gTwoBody],
    C1_bh_theta_zero_matches_direct gTwoBody rfl
      (fun i _ => by norm_num [gTwoBody])
      (fun q _ => by norm_num [gTwoBody]) 3⟩

/-- C2: After a completed octree build on a nonempty body set with positive
masses, the root node's `total_mass` equals the sum of all inserted bodies'
masses, and every internal node carries no body index of its own (a node is
empty, a leaf, or internal, never a mix), has `total_mass` equal to the sum
of its descendant leaves' masses, and `center_of_mass` equal to their
mass-weighted centroid. -/
theorem C2_octree_invariants (g : Galaxy) (fuel : ℕ) (hn : 0 < g.n)
    (hm : ∀ i, i < g.n → 0 < g.masses i) :
    ∀ root, buildOctree g fuel = some root →
      root.totalMass = (∑ i ∈ Finset.range g.n, g.masses i) ∧
        SubtreeOK g root := by
  intro root h
  obtain ⟨hinv, hleaves⟩ := build_ok g fuel root hm h
  have hpos : ∀ j ∈ leavesM root, 0 < g.masses j := by
    rw [hleaves]
    intro j hj
    exact hm j (List.mem_range.mp (Multiset.mem_coe.mp hj))
  constructor
  · rw [NodeInv_totalMass g root hinv, hleaves, massSumM_coe, sumRangeList]
  · exact NodeInv_SubtreeOK g root hinv hpos

/-- Witness for C2: the hypotheses hold at the concrete two-body system
`gTwoBody`. -/
theorem C2_witness :
    0 < gTwoBody.n ∧ (∀ i, i < gTwoBody.n → 0 < gTwoBody.masses i) ∧
      (∀ root, buildOctree gTwoBody 3 = some root →
        root.totalMass = (∑ i ∈ Finset.range gTwoBody.n, gTwoBody.masses i) ∧
          SubtreeOK gTwoBody root) :=
  ⟨by norm_num [gTwoBody], fun i _ => by norm_num [gTwoBody],
    C2_octree_invariants gTwoBody 3 (by norm_num [gTwoBody])
      (fun i _ => by norm_num [gTwoBody])⟩

theorem scale_scale_half (a : Vec3) (d : ℚ) :
    (a.scale d).scale (1 / 2) = a.scale (d / 2) := by
  apply Vec3.ext <;> simp <;> ring

/-- The source `update` body equals the spec's kick-drift-kick
composition. -/
theorem updateDirect_eq_kdk (g : Galaxy) :
    updateDirect g = kickKDK (driftKDK (kickKDK g)) := by
  have hsc : ∀ (a : Vec3) (d : ℚ), (a.scale d).scale 2⁻¹ = a.scale (d / 2) := by
    intro a d
    apply Vec3.ext <;> simp [Vec3.scale] <;> ring
  simp [updateDirect, kickKDK, driftKDK, hsc]

/-- C3: `update` with the direct evaluator performs exactly the
kick-drift-kick leapfrog sequence — half velocity kick from accelerations
`F/m` at the current positions, full position drift, force re-evaluation,
second half kick — and modifies nothing else of the body set: body count,
masses and all configuration parameters are untouched. -/
theorem C3_update_is_kick_drift_kick (g : Galaxy) :
    updateDirect g = kickKDK (driftKDK (kickKDK g)) ∧
      (updateDirect g).n = g.n ∧ (updateDirect g).masses = g.masses ∧
      (updateDirect g).G = g.G ∧ (updateDirect g).softening = g.softening ∧
      (updateDirect g).dt = g.dt ∧ (updateDirect g).theta = g.theta ∧
      (updateDirect g).sqrtA = g.sqrtA :=
  ⟨updateDirect_eq_kdk g, rfl, rfl, rfl, rfl, rfl, rfl, rfl⟩

/-- C4: in the direct force loop, the vector added into slot `i` for the
pair `(i, j)` is exactly the negation of the one for `(j, i)` — Newton's
third law holds exactly — and slot `k` of the loop's output accumulates
precisely these pair terms. -/
theorem C4_newton_third_law (g : Galaxy) (i j : ℕ) :
    pairF g i j = -pairF g j i ∧
      forcesDirect g i = ((List.range g.n).map
        (fun k => if k = i then 0 else pairF g i k)).sum := by
  constructor
  · rw [pairF_antisymm g i j, neg_neg]
  · exact forcesDirect_eq g i

/-- C5: for a system of exactly one body, the force on body 0 is the zero
vector under both strategies: the direct pair loop is empty, and in
Barnes–Hut the tree is a single leaf holding body 0 itself, which
contributes no self-force. -/
theorem C5_single_body_zero_force (g : Galaxy) (h1 : g.n = 1) :
    forcesDirect g 0 = 0 ∧
      (∀ fuel F, forcesBH g fuel = some F → F 0 = 0) := by
  constructor
  · rw [forcesDirect_eq, h1, show List.range 1 = [0] from rfl]
    simp
  · intro fuel F hF
    unfold forcesBH buildOctree at hF
    have hr1 : List.range 1 = [0] := rfl
    rw [h1, if_neg (by norm_num : ¬ (1 : ℕ) = 0), hr1, List.foldl_cons,
      List.foldl_nil, Option.some_bind] at hF
    cases fuel with
    | zero =>
      rw [show insertBody g 0 (ONode.node ((minPos g + maxPos g).sdiv 2)
          ((maxPos g - minPos g).maxComp * (11 / 10)) 0 ⟨0, 0, 0⟩ none) 0 =
          none from rfl] at hF
      simp at hF
    | succ fuel =>
      rw [show insertBody g (fuel + 1)
          (ONode.node ((minPos g + maxPos g).sdiv 2)
            ((maxPos g - minPos g).maxComp * (11 / 10)) 0 ⟨0, 0, 0⟩ none) 0 =
          some (ONode.node ((minPos g + maxPos g).sdiv 2)
            ((maxPos g - minPos g).maxComp * (11 / 10)) (g.masses 0)
            (g.positions 0) (some 0)) from rfl] at hF
      simp only [Option.map_some', Option.some.injEq] at hF
      subst hF
      by_cases hm0 : g.masses 0 = 0
      · simp [calcForce, hm0]
      · simp [calcForce, hm0, bodyOther]

/-- Witness for C5: the hypothesis holds at the concrete one-body system
`gSingle`. -/
theorem C5_witness :
    gSingle.n = 1 ∧ (forcesDirect gSingle 0 = 0 ∧
      (∀ fuel F, forcesBH gSingle fuel = some F → F 0 = 0)) :=
  ⟨rfl, C5_single_body_zero_force gSingle rfl⟩

/-- C6 counterexample: on the concrete 1001-body system `gBig`, the
potential energy reported by `GalaxyOptimized.get_energy` (sampled over the
first 1000 bodies and rescaled) is `0`, while the full softened pairwise
sum over all 1001 bodies is `-1/1000`: the two masses sit at indices 0 and
1000, and the pair `(0, 1000)` is never sampled.  This falsifies the claim
that the reported potential energy equals the full pairwise sum for every
body set. -/
theorem C6_counterexample :
    potentialSampled gBig = 0 ∧ potentialTrue gBig = -(1 / 1000) ∧
      potentialSampled gBig ≠ potentialTrue gBig := by
  have hmin : min 1000 gBig.n = 1000 := by norm_num [gBig]
  have hz : (∑ i ∈ Finset.range 1000, ∑ j ∈ Finset.Ico (i + 1) 1000,
      gBig.G * gBig.masses i * gBig.masses j /
        gBig.sqrtA ((gBig.positions j - gBig.positions i).normSq +
          gBig.softening * gBig.softening)) = 0 := by
    apply Finset.sum_eq_zero
    intro i hi
    apply Finset.sum_eq_zero
    intro j hj
    rw [Finset.mem_Ico] at hj
    rw [Finset.mem_range] at hi
    rcases eq_or_ne i 0 with rfl | h0
    · have hj0 : ¬ j = 0 := by omega
      have hj1000 : ¬ j = 1000 := by omega
      have hmj : gBig.masses j = 0 := by simp [gBig, hj0, hj1000]
      rw [hmj, mul_zero, zero_div]
    · have hi1000 : ¬ i = 1000 := by omega
      have hmi : gBig.masses i = 0 := by simp [gBig, h0, hi1000]
      rw [hmi, mul_zero, zero_mul, zero_div]
  have hs : potentialSampled gBig = 0 := by
    simp only [potentialSampled]
    rw [hmin, hz, neg_zero, if_pos (by norm_num [gBig] : 1000 < gBig.n),
      zero_mul]
  have hterm : gBig.G * gBig.masses 0 * gBig.masses 1000 /
      gBig.sqrtA ((gBig.positions 1000 - gBig.positions 0).normSq +
        gBig.softening * gBig.softening) = 1 / 1000 := by
    have hn : (gBig.positions 1000 - gBig.positions 0).normSq +
        gBig.softening * gBig.softening = 1000000 := by
      norm_num [gBig, Vec3.normSq]
    rw [hn]
    norm_num [gBig]
  have ht : potentialTrue gBig = -(1 / 1000) := by
    unfold potentialTrue
    rw [show gBig.n = 1001 from rfl]
    rw [Finset.sum_eq_single 0 ?hz2 ?hm2]
    case hz2 =>
      intro a ha hne
      rw [Finset.mem_range] at ha
      rcases eq_or_ne a 1000 with rfl | ha1000
      · rw [Finset.Ico_self, Finset.sum_empty]
      · apply Finset.sum_eq_zero
        intro j hj
        have hma : gBig.masses a = 0 := by simp [gBig, hne, ha1000]
        rw [hma, mul_zero, zero_mul, zero_div]
    case hm2 =>
      intro h
      exact absurd (Finset.mem_range.mpr (by norm_num)) h
    rw [Finset.sum_eq_single 1000 ?hz3 ?hm3]
    case hz3 =>
      intro j hj hne
      rw [Finset.mem_Ico] at hj
      have hj0 : ¬ j = 0 := by omega
      have hmj : gBig.masses j = 0 := by simp [gBig, hj0, hne]
      rw [hmj, mul_zero, zero_div]
    case hm3 =>
      intro h
      exact absurd (Finset.mem_Ico.mpr (by norm_num)) h
    rw [hterm]
  refine ⟨hs, ht, ?_⟩
  rw [hs, ht]
  norm_num

/-- C6 amended: the potential-energy diagnostic of the optimized core
equals the full softened pairwise sum exactly when `n ≤ 1000` (the sampling
threshold); for larger `n` it is the rescaled sampled estimate of the first
1000 bodies, as exhibited by the counterexample. -/
theorem C6_amended_pe_full_sum_when_small (g : Galaxy) (h : g.n ≤ 1000) :
    potentialSampled g = potentialTrue g := by
  simp only [potentialSampled, potentialTrue]
  rw [min_eq_right h, if_neg (not_lt.mpr h)]

/-- Witness for the amended C6 at the concrete two-body system. -/
theorem C6_witness :
    gTwoBody.n ≤ 1000 ∧ potentialSampled gTwoBody = potentialTrue gTwoBody :=
  ⟨by norm_num [gTwoBody],
    C6_amended_pe_full_sum_when_small gTwoBody (by norm_num [gTwoBody])⟩

/-- C7 counterexample: on the concrete one-body system `gCross`, the
mass-weighted cross product is the vector `(0, 2, 3)`, but the
`angular_momentum` entry computed by `get_statistics` is the single scalar
`np.sum` of all its components, `5`, which differs from every component:
the diagnostic does not return a componentwise 3-vector. -/
theorem C7_counterexample :
    angularMomentumScalar gCross = 5 ∧
      angularMomentumVec gCross = ⟨0, 2, 3⟩ ∧
      angularMomentumScalar gCross ≠ (angularMomentumVec gCross).x ∧
      angularMomentumScalar gCross ≠ (angularMomentumVec gCross).y ∧
      angularMomentumScalar gCross ≠ (angularMomentumVec gCross).z := by
  have h1 : angularMomentumScalar gCross = 5 := by
    unfold angularMomentumScalar
    rw [show gCross.n = 1 from rfl, Finset.sum_range_one]
    norm_num [gCross, Vec3.cross]
  have h2 : angularMomentumVec gCross = ⟨0, 2, 3⟩ := by
    unfold angularMomentumVec
    rw [show gCross.n = 1 from rfl, Finset.sum_range_one]
    apply Vec3.ext <;> norm_num [gCross, Vec3.cross, Vec3.scale]
  refine ⟨h1, h2, ?_, ?_, ?_⟩ <;> rw [h1, h2] <;> norm_num

/-- C7 amended: the `angular_momentum` diagnostic returns the scalar
obtained by collapsing the componentwise angular-momentum vector
`Σ m_i (pos_i × v_i)`: it is the sum of that vector's three components,
not the vector itself. -/
theorem C7_amended_angular_momentum_collapses (g : Galaxy) :
    angularMomentumScalar g =
      (angularMomentumVec g).x + (angularMomentumVec g).y +
        (angularMomentumVec g).z := by
  unfold angularMomentumScalar angularMomentumVec
  have hx : (∑ i ∈ Finset.range g.n,
      ((g.positions i).cross (g.velocities i)).scale (g.masses i)).x =
      ∑ i ∈ Finset.range g.n,
        (((g.positions i).cross (g.velocities i)).scale (g.masses i)).x :=
    map_sum Vec3.xHom _ _
  have hy : (∑ i ∈ Finset.range g.n,
      ((g.positions i).cross (g.velocities i)).scale (g.masses i)).y =
      ∑ i ∈ Finset.range g.n,
        (((g.positions i).cross (g.velocities i)).scale (g.masses i)).y :=
    map_sum Vec3.yHom _ _
  have hz : (∑ i ∈ Finset.range g.n,
      ((g.positions i).cross (g.velocities i)).scale (g.masses i)).z =
      ∑ i ∈ Finset.range g.n,
        (((g.positions i).cross (g.velocities i)).scale (g.masses i)).z :=
    map_sum Vec3.zHom _ _
  rw [hx, hy, hz, ← Finset.sum_add_distrib, ← Finset.sum_add_distrib]
  apply Finset.sum_congr rfl
  intro i _
  simp only [Vec3.scale_x, Vec3.scale_y, Vec3.scale_z]
  ring

/-- C8 counterexample: on the concrete configuration `gBad` with negative
time step and negative mass, `update` raises no configuration error: it
proceeds with the leapfrog computation and moves the body from the origin
to `(-1, 0, 0)`. -/
theorem C8_counterexample :
    gBad.dt < 0 ∧ gBad.masses 0 < 0 ∧
      (updateDirect gBad).positions 0 = ⟨-1, 0, 0⟩ ∧
      gBad.positions 0 = ⟨0, 0, 0⟩ := by
  have hF0 : forcesDirect gBad 0 = 0 := by
    rw [forcesDirect_eq, show gBad.n = 1 from rfl,
      show List.range 1 = [0] from rfl]
    simp
  have hp0 : gBad.positions 0 = ⟨0, 0, 0⟩ := rfl
  have hv0 : gBad.velocities 0 = ⟨1, 0, 0⟩ := rfl
  have hdt : gBad.dt = -1 := rfl
  have hmm : gBad.masses 0 = -2 := rfl
  refine ⟨by norm_num [gBad], by norm_num [gBad], ?_, rfl⟩
  simp only [updateDirect]
  apply Vec3.ext <;>
    simp [hF0, hp0, hv0, hdt, hmm, Vec3.scale, Vec3.sdiv] <;> norm_num

/-- C8 amended: neither initialization nor `update` validates the
configuration: `__init__` sets hard-coded values without checks and
`update` performs none, so with any invalid configuration (negative `dt`,
non-positive mass, negative softening, negative `theta`) the step still
executes the full kick-drift-kick computation on the given values, with no
error signalled and no clamping. -/
theorem C8_amended_no_validation (g : Galaxy)
    (h : g.dt < 0 ∨ (∃ i, i < g.n ∧ g.masses i ≤ 0) ∨ g.softening < 0 ∨
      g.theta < 0) :
    updateDirect g = kickKDK (driftKDK (kickKDK g)) ∧
      (updateDirect g).masses = g.masses :=
  ⟨updateDirect_eq_kdk g, rfl⟩

/-- Witness for the amended C8 at the concrete invalid configuration. -/
theorem C8_witness :
    (gBad.dt < 0 ∨ (∃ i, i < gBad.n ∧ gBad.masses i ≤ 0) ∨
      gBad.softening < 0 ∨ gBad.theta < 0) ∧
      (updateDirect gBad = kickKDK (driftKDK (kickKDK gBad)) ∧
        (updateDirect gBad).masses = gBad.masses) :=
  ⟨Or.inl (by norm_num [gBad]),
    C8_amended_no_validation gBad (Or.inl (by norm_num [gBad]))⟩

theorem Vec3.vmin_self (a : Vec3) : a.vmin a = a := by
  apply Vec3.ext <;> simp [Vec3.vmin]

theorem Vec3.vmax_self (a : Vec3) : a.vmax a = a := by
  apply Vec3.ext <;> simp [Vec3.vmax]

theorem createChildren_size_zero (c : Vec3) (k : Fin 8) :
    createChildren c 0 k = ONode.node c 0 0 ⟨0, 0, 0⟩ none := by
  have h1 : (if k.val % 2 = 0 then -((0 : ℚ) / 2) else (0 : ℚ) / 2) = 0 := by
    split_ifs <;> norm_num
  have h2 : (if k.val / 2 % 2 = 0 then -((0 : ℚ) / 2) else (0 : ℚ) / 2) = 0 := by
    split_ifs <;> norm_num
  have h3 : (if k.val / 4 % 2 = 0 then -((0 : ℚ) / 2) else (0 : ℚ) / 2) = 0 := by
    split_ifs <;> norm_num
  have h4 : c + ((⟨0, 0, 0⟩ : Vec3)).sdiv 2 = c := by
    apply Vec3.ext <;> simp
  have h5 : (0 : ℚ) / 2 = 0 := by norm_num
  simp only [createChildren]
  rw [h1, h2, h3, h4, h5]

/-- Inserting a second body coincident with the one already stored in a
zero-size leaf never terminates: every recursion level reproduces the same
degenerate leaf. -/
theorem insert_coincident_none (g : Galaxy) (c : Vec3)
    (hp : g.positions 1 = g.positions 0) :
    ∀ fuel, insertBody g fuel
      (ONode.node c 0 (g.masses 0) (g.positions 0) (some 0)) 1 = none := by
  intro fuel
  induction fuel with
  | zero => rfl
  | succ fuel ih =>
    have hchild := createChildren_size_zero c
    simp only [insertBody, hchild, hp, Function.update_same]
    cases fuel with
    | zero => rfl
    | succ f =>
      rw [show insertBody g (f + 1)
        (ONode.node c 0 0 ⟨0, 0, 0⟩ none) 0 =
        some (ONode.node c 0 (g.masses 0) (g.positions 0) (some 0))
        from rfl]
      simp only [hp, Function.update_same, ih]
      rw [hp, Function.update_same, ih]

/-- Two coincident bodies make the whole octree build fail for every fuel
bound: the build recurses without bound (a Python `RecursionError`), with
no designed degeneracy signal. -/
theorem coincident_build_none (g : Galaxy) (h2 : g.n = 2)
    (hp : g.positions 0 = g.positions 1) :
    ∀ fuel, buildOctree g fuel = none := by
  intro fuel
  unfold buildOctree
  rw [h2, if_neg (by norm_num : ¬ (2 : ℕ) = 0),
    show List.range 2 = [0, 1] from rfl]
  have hmin : minPos g = g.positions 0 := by
    unfold minPos
    rw [h2, show List.range 2 = [0, 1] from rfl, List.foldl_cons,
      List.foldl_cons, List.foldl_nil, ← hp, Vec3.vmin_self, Vec3.vmin_self]
  have hmax : maxPos g = g.positions 0 := by
    unfold maxPos
    rw [h2, show List.range 2 = [0, 1] from rfl, List.foldl_cons,
      List.foldl_cons, List.foldl_nil, ← hp, Vec3.vmax_self, Vec3.vmax_self]
  have hcenter : (minPos g + maxPos g).sdiv 2 = g.positions 0 := by
    rw [hmin, hmax]
    apply Vec3.ext <;> simp <;> ring
  have hsize : (maxPos g - minPos g).maxComp * (11 / 10) = 0 := by
    rw [hmin, hmax, sub_self]
    simp [Vec3.maxComp]
  rw [hcenter, hsize, List.foldl_cons, List.foldl_cons, List.foldl_nil,
    Option.some_bind]
  cases fuel with
  | zero =>
    rw [show insertBody g 0
      (ONode.node (g.positions 0) 0 0 ⟨0, 0, 0⟩ none) 0 = none from rfl]
    rfl
  | succ f =>
    rw [show insertBody g (f + 1)
      (ONode.node (g.positions 0) 0 0 ⟨0, 0, 0⟩ none) 0 =
      some (ONode.node (g.positions 0) 0 (g.masses 0) (g.positions 0)
        (some 0)) from rfl, Option.some_bind]
    exact insert_coincident_none g (g.positions 0) hp.symm (f + 1)

/-- C9 counterexample: on the concrete two coincident bodies of
`gCoincident`, octree construction produces no tree at recursion depth 1,
20 or 1000 — there is no minimum-size floor, depth cap or degeneracy
signal; the insertion simply recurses beyond any bound. -/
theorem C9_counterexample :
    buildOctree gCoincident 1 = none ∧ buildOctree gCoincident 20 = none ∧
      buildOctree gCoincident 1000 = none :=
  ⟨coincident_build_none gCoincident rfl rfl 1,
    coincident_build_none gCoincident rfl rfl 20,
    coincident_build_none gCoincident rfl rfl 1000⟩

/-- C9 amended: octree construction does not terminate on degenerate
geometry and signals nothing: for a two-body set with numerically identical
positions the bounding box has zero size and insertion recurses without
bound — for every recursion-depth budget the build completes no tree.  (In
Python this surfaces as an uncontrolled `RecursionError`, not a designed
numerical-degeneracy error.) -/
theorem C9_amended_coincident_unbounded_recursion (g : Galaxy)
    (h2 : g.n = 2) (hp : g.positions 0 = g.positions 1) (fuel : ℕ) :
    buildOctree g fuel = none :=
  coincident_build_none g h2 hp fuel

/-- Witness for the amended C9 at the concrete coincident pair. -/
theorem C9_witness :
    gCoincident.n = 2 ∧
      gCoincident.positions 0 = gCoincident.positions 1 ∧
      buildOctree gCoincident 50 = none :=
  ⟨rfl, rfl, C9_amended_coincident_unbounded_recursion gCoincident rfl rfl 50⟩
